import Mathlib

set_option linter.all false

namespace MemSim

/-! Shallow embedding of `src/main.py`: the paging simulation
(`simulate_fifo`, `simulate_lru`) and the segmentation simulation
(`merge_free_list`, `allocate_segment`, and the command loop of
`segmentation_simulation`).  Pages, addresses and sizes are Python
integers, embedded as `Int`; the frame count is a length, embedded as
`Nat`.  Python operations that can raise (`list.pop(0)` on an empty
list, `list.index`/`list.remove` on a missing element) are embedded in
`Option`, with `none` for the raised exception. -/

/-- Snapshot slot: `some p` is a frame holding page `p`, `none` is the
padding marker `'-'` used by the source. -/
abbrev Slot := Option Int

/-- The padding loop of the source: copy the frame list and append empty
markers until its length reaches the frame count. -/
def padFrames (fc : Nat) (frames : List Int) : List Slot :=
  frames.map some ++ List.replicate (fc - frames.length) none

/-- Python's `list.index` (index of the first occurrence). The source
only calls it on members, which the step functions guard for. -/
def frameIndex (a : Int) : List Int → Nat
  | [] => 0
  | b :: t => if b = a then 0 else frameIndex a t + 1

/-- State carried through a paging run: frame contents, the policy's
ordering list (the FIFO `queue` or the LRU `usage_order`), the
accumulated snapshots (`states`), the fault flags and the fault
counter. -/
structure PageSt where
  frames : List Int
  order : List Int
  states : List (List Slot)
  flags : List Bool
  faults : Nat
deriving DecidableEq

/-- One iteration of the loop body of `simulate_fifo`. `none` embeds the
`IndexError`/`ValueError` raised by `queue.pop(0)` on an empty queue or
`frames.index` on a missing page. -/
def fifoStep (fc : Nat) (st : PageSt) (page : Int) : Option PageSt :=
  if page ∈ st.frames then
    some { st with states := st.states ++ [padFrames fc st.frames],
                   flags := st.flags ++ [false] }
  else if st.frames.length < fc then
    some { frames := st.frames ++ [page]
           order := st.order ++ [page]
           states := st.states ++ [padFrames fc (st.frames ++ [page])]
           flags := st.flags ++ [true]
           faults := st.faults + 1 }
  else
    match st.order with
    | [] => none
    | old :: rest =>
      if old ∈ st.frames then
        let frames2 := st.frames.set (frameIndex old st.frames) page
        some { frames := frames2
               order := rest ++ [page]
               states := st.states ++ [padFrames fc frames2]
               flags := st.flags ++ [true]
               faults := st.faults + 1 }
      else none

/-- One iteration of the loop body of `simulate_lru`.  On a hit the
referenced page is moved to the tail of `usage_order`
(`usage_order.remove(page)` then append). -/
def lruStep (fc : Nat) (st : PageSt) (page : Int) : Option PageSt :=
  if page ∈ st.frames then
    if page ∈ st.order then
      some { st with order := st.order.erase page ++ [page],
                     states := st.states ++ [padFrames fc st.frames],
                     flags := st.flags ++ [false] }
    else none
  else if st.frames.length < fc then
    some { frames := st.frames ++ [page]
           order := st.order ++ [page]
           states := st.states ++ [padFrames fc (st.frames ++ [page])]
           flags := st.flags ++ [true]
           faults := st.faults + 1 }
  else
    match st.order with
    | [] => none
    | old :: rest =>
      if old ∈ st.frames then
        let frames2 := st.frames.set (frameIndex old st.frames) page
        some { frames := frames2
               order := rest ++ [page]
               states := st.states ++ [padFrames fc frames2]
               flags := st.flags ++ [true]
               faults := st.faults + 1 }
      else none

/-- The `for page in page_seq` loop, threading the state through the
given step function. -/
def pageRun (step : Nat → PageSt → Int → Option PageSt) (fc : Nat) :
    PageSt → List Int → Option PageSt
  | st, [] => some st
  | st, p :: ps =>
    match step fc st p with
    | none => none
    | some st2 => pageRun step fc st2 ps

/-- The initial state of either paging simulation: everything empty. -/
def pageInit : PageSt := ⟨[], [], [], [], 0⟩

/-- `simulate_fifo(page_seq, frame_count)` returning
`(states, faults, fault_flags)`; `none` when the Python code raises. -/
def simulate_fifo (page_seq : List Int) (frame_count : Nat) :
    Option (List (List Slot) × Nat × List Bool) :=
  (pageRun fifoStep frame_count pageInit page_seq).map
    (fun st => (st.states, st.faults, st.flags))

/-- `simulate_lru(page_seq, frame_count)` returning
`(states, faults, fault_flags)`; `none` when the Python code raises. -/
def simulate_lru (page_seq : List Int) (frame_count : Nat) :
    Option (List (List Slot) × Nat × List Bool) :=
  (pageRun lruStep frame_count pageInit page_seq).map
    (fun st => (st.states, st.faults, st.flags))

/-- The reference sequence offered as the default input of
`paging_simulation`. -/
def refSeq : List Int := [7, 0, 1, 2, 0, 3, 0, 4, 2, 3, 0, 3, 2]

/-! Segmentation simulation.  The free list is a Python list of
`(start, size)` pairs; segments live in an insertion-ordered dictionary
from segment id to `(start, size)`, embedded as an association list. -/

/-- The start-address key order used by `free_list.sort(key=lambda x: x[0])`. -/
@[reducible] def leStart (a b : Int × Int) : Prop := a.1 ≤ b.1

instance : DecidableRel leStart := fun a b => inferInstanceAs (Decidable (a.1 ≤ b.1))

instance : IsTotal (Int × Int) leStart := ⟨fun a b => Int.le_total a.1 b.1⟩

instance : IsTrans (Int × Int) leStart := ⟨fun _ _ _ h1 h2 => le_trans h1 h2⟩

/-- Python's stable sort by start address.  Any stable sort produces the
same list, so insertion sort by the key order embeds it exactly. -/
def sortStart (l : List (Int × Int)) : List (Int × Int) :=
  l.insertionSort leStart

/-- The left-to-right merge scan of `merge_free_list`: the last emitted
block absorbs the next block exactly when its end equals that block's
start. -/
def mergeBlocks : List (Int × Int) → List (Int × Int)
  | [] => []
  | [b] => [b]
  | b1 :: b2 :: rest =>
    if b1.1 + b1.2 = b2.1 then mergeBlocks ((b1.1, b1.2 + b2.2) :: rest)
    else b1 :: mergeBlocks (b2 :: rest)
termination_by l => l.length

/-- `merge_free_list(free_list)`: sort by start address, then merge
contiguous blocks. -/
def merge_free_list (free_list : List (Int × Int)) : List (Int × Int) :=
  mergeBlocks (sortStart free_list)

/-- `allocate_segment(free_list, size)`: first-fit scan in list order;
an exact fit pops the block, otherwise the block is shrunk in place.
Returns the allocated start (or `none`) together with the updated free
list. -/
def allocate_segment : List (Int × Int) → Int → Option Int × List (Int × Int)
  | [], _ => (none, [])
  | (start, free_size) :: rest, size =>
    if size ≤ free_size then
      if free_size = size then (some start, rest)
      else (some start, (start + size, free_size - size) :: rest)
    else
      let r := allocate_segment rest size
      (r.1, (start, free_size) :: r.2)

/-- A state-changing command of `segmentation_simulation` (`show` and
`exit` leave the state untouched and are out of scope). -/
inductive Cmd where
  | alloc (id : String) (size : Int)
  | dealloc (id : String)
deriving DecidableEq

/-- The allocator state: the free list, and the insertion-ordered
dictionary of allocated segments. -/
structure SegState where
  free : List (Int × Int)
  segs : List (String × (Int × Int))
deriving DecidableEq

/-- Initially all memory is one free block `[(0, memory_size)]` and no
segment is allocated. -/
def segInit (memory_size : Int) : SegState := ⟨[(0, memory_size)], []⟩

/-- One dispatch of the command loop of `segmentation_simulation`:
duplicate-id and unknown-id checks, then `allocate_segment`, or
dictionary removal followed by append and `merge_free_list`. -/
def stepCmd (st : SegState) (c : Cmd) : SegState :=
  match c with
  | .alloc id size =>
    if st.segs.any (fun e => e.1 = id) then st
    else
      let r := allocate_segment st.free size
      match r.1 with
      | some a => ⟨r.2, st.segs ++ [(id, (a, size))]⟩
      | none => ⟨r.2, st.segs⟩
  | .dealloc id =>
    match st.segs.find? (fun e => e.1 = id) with
    | none => st
    | some e => ⟨merge_free_list (st.free ++ [e.2]),
                 st.segs.eraseP (fun x => x.1 = id)⟩

/-- The command loop, run from the initial state. -/
def run_segmentation (memory_size : Int) (cmds : List Cmd) : SegState :=
  cmds.foldl stepCmd (segInit memory_size)

/-- Membership of an address in a half-open block `[start, start+size)`. -/
@[reducible] def blockMem (b : Int × Int) (x : Int) : Prop := b.1 ≤ x ∧ x < b.1 + b.2

instance (b : Int × Int) (x : Int) : Decidable (blockMem b x) :=
  inferInstanceAs (Decidable (_ ∧ _))

/-- All address blocks of a state: the free blocks together with the
ranges of the allocated segments. -/
def blocksOf (st : SegState) : List (Int × Int) :=
  st.free ++ st.segs.map (fun e => e.2)

/-- Two blocks are disjoint when no address lies in both. -/
@[reducible] def disjB (b c : Int × Int) : Prop := ∀ x : Int, ¬ (blockMem b x ∧ blockMem c x)

/-- The coverage invariant claimed of the allocator: all blocks (free
ranges and segment ranges) are pairwise disjoint, and their union is
exactly the address space `[0, memory_size)`. -/
def SegGood (memory_size : Int) (st : SegState) : Prop :=
  (blocksOf st).Pairwise disjB ∧
    ∀ x : Int, (∃ b ∈ blocksOf st, blockMem b x) ↔ (0 ≤ x ∧ x < memory_size)

/-- How many blocks of the list contain the address `x`. -/
def covCount (l : List (Int × Int)) (x : Int) : Nat :=
  l.countP (fun b => decide (blockMem b x))

/-- All block sizes of the list are nonnegative. -/
def sizesNN (l : List (Int × Int)) : Prop := ∀ b ∈ l, 0 ≤ b.2

/-- The inductive invariant behind `SegGood`: nonnegative sizes, and
every address of `[0, memory_size)` is covered by exactly one block
while addresses outside are covered by none. -/
def SegInv (memory_size : Int) (st : SegState) : Prop :=
  sizesNN (blocksOf st) ∧
    ∀ x : Int, covCount (blocksOf st) x =
      if 0 ≤ x ∧ x < memory_size then 1 else 0

/-- Whether a command carries a positive allocation size (deallocations
trivially qualify). -/
def allocPos : Cmd → Bool
  | .alloc _ size => decide (0 < size)
  | .dealloc _ => true

/-- A well-formed (coalesced) free list as the spec describes it:
blocks in ascending start order, pairwise disjoint and non-adjacent
(each block ends strictly before the next begins), with positive
sizes. -/
def WFfree (l : List (Int × Int)) : Prop :=
  l.Chain' (fun b c => b.1 + b.2 < c.1) ∧ ∀ b ∈ l, 0 < b.2

/-- Strict start order on blocks. -/
@[reducible] def ltStart (b c : Int × Int) : Prop := b.1 < c.1

/-- The first block ends strictly before the second starts, and both
have positive sizes; the transitive kernel of well-formed free lists. -/
@[reducible] def endLtPos (b c : Int × Int) : Prop :=
  b.1 + b.2 < c.1 ∧ 0 < b.2 ∧ 0 < c.2

instance : IsTrans (Int × Int) endLtPos :=
  ⟨fun _ b _ h1 h2 => ⟨by unfold endLtPos at *; omega, h1.2.1, h2.2.2⟩⟩

/-- Start order with equality only for identical blocks; antisymmetric,
which `leStart` is not. -/
@[reducible] def ltStartEq (b c : Int × Int) : Prop := b.1 < c.1 ∨ b = c

instance : IsAntisymm (Int × Int) ltStartEq :=
  ⟨by
    intro a b h1 h2
    rcases h1 with h1 | h1
    · rcases h2 with h2 | h2
      · exact absurd h1 (by omega)
      · exact h2.symm
    · exact h1⟩

/-- The inductive invariant of a paging run: distinct resident pages,
a duplicate-free ordering list holding exactly the resident pages, at
most `frame_count` resident pages, and a fault counter agreeing with
the fault flags. -/
def PInv (fc : Nat) (st : PageSt) : Prop :=
  st.frames.Nodup ∧ st.order.Nodup ∧
    (∀ p : Int, p ∈ st.order ↔ p ∈ st.frames) ∧
    st.frames.length ≤ fc ∧
    st.faults = st.flags.countP (fun b => b) ∧
    st.states.length = st.flags.length

/-! Theorems.  First the concrete, computational claims about the two
reference simulations and the error behaviour of the engines. -/

/-- C1 (counterexample): on the reference sequence with 3 frames, the
FIFO simulation does not produce 9 faults. -/
theorem fifo_ref_not_nine_faults :
    (simulate_fifo refSeq 3).map (fun r => r.2.1) ≠ some 9 := by decide

/-- C1 (amended): on the reference sequence with 3 frames the FIFO
simulation yields 10 faults, and the step-1 trace entry (page 7) shows
frames `[7, -, -]` with a fault. -/
theorem fifo_ref_ten_faults :
    (simulate_fifo refSeq 3).map (fun r => (r.2.1, r.1.head?, r.2.2.head?)) =
      some (10, some [some 7, none, none], some true) := by decide

/-- C2 (counterexample): on the reference sequence with 3 frames, the
LRU simulation does not produce 10 faults. -/
theorem lru_ref_not_ten_faults :
    (simulate_lru refSeq 3).map (fun r => r.2.1) ≠ some 10 := by decide

/-- C2 (amended): on the reference sequence with 3 frames the LRU
simulation yields 9 faults. -/
theorem lru_ref_nine_faults :
    (simulate_lru refSeq 3).map (fun r => r.2.1) = some 9 := by decide

/-- C3: with `frame_count = 0` and a non-empty reference sequence both
engines raise (they attempt to evict from the empty ordering list
instead of completing with all-fault output), embedded as `none`. -/
theorem zero_frames_raises :
    simulate_fifo [1] 0 = none ∧ simulate_lru [1] 0 = none := by decide

/-- C4: the allocate command performs no `size ≤ 0` check: the command
`allocate a -5` against a fresh 100-unit memory invokes the first-fit
allocator, succeeds, records segment `a` with range `(0, -5)`, and
mutates the free list to `(-5, 105)` — rather than failing with
`InvalidSize` and leaving the state unchanged. -/
theorem nonpositive_size_allocates :
    run_segmentation 100 [Cmd.alloc "a" (-5)] =
        ⟨[(-5, 105)], [("a", (0, -5))]⟩ ∧
      run_segmentation 100 [Cmd.alloc "a" (-5)] ≠ segInit 100 ∧
      run_segmentation 100 [Cmd.alloc "b" 0] =
        ⟨[(0, 100)], [("b", (0, 0))]⟩ := by decide

/-! Lemmas about the coalescing scan `mergeBlocks`. -/

theorem mergeBlocks_head_fst :
    ∀ l : List (Int × Int),
      (mergeBlocks l).head?.map Prod.fst = l.head?.map Prod.fst := by
  intro l
  induction l using mergeBlocks.induct with
  | case1 => simp [mergeBlocks]
  | case2 b => simp [mergeBlocks]
  | case3 b1 b2 rest h ih => rw [mergeBlocks, if_pos h]; simpa using ih
  | case4 b1 b2 rest h ih => rw [mergeBlocks, if_neg h]; simp

theorem mergeBlocks_cons_ne (b c : Int × Int) (l : List (Int × Int))
    (h : b.1 + b.2 ≠ c.1) : mergeBlocks (b :: c :: l) = b :: mergeBlocks (c :: l) := by
  rw [mergeBlocks, if_neg h]

theorem mergeBlocks_starts :
    ∀ l : List (Int × Int), ∀ a ∈ mergeBlocks l, ∃ c ∈ l, a.1 = c.1 := by
  intro l
  induction l using mergeBlocks.induct with
  | case1 => simp [mergeBlocks]
  | case2 b => simp [mergeBlocks]
  | case3 b1 b2 rest h ih =>
    rw [mergeBlocks, if_pos h]
    intro a ha
    obtain ⟨c, hc, hac⟩ := ih a ha
    rcases List.mem_cons.mp hc with rfl | hc
    · exact ⟨b1, by simp, hac⟩
    · exact ⟨c, by simp [hc], hac⟩
  | case4 b1 b2 rest h ih =>
    rw [mergeBlocks, if_neg h]
    intro a ha
    rcases List.mem_cons.mp ha with rfl | ha
    · exact ⟨a, by simp, rfl⟩
    · obtain ⟨c, hc, hac⟩ := ih a ha
      exact ⟨c, List.mem_cons_of_mem _ hc, hac⟩

theorem mergeBlocks_sorted :
    ∀ l : List (Int × Int), l.Sorted leStart → (mergeBlocks l).Sorted leStart := by
  intro l
  induction l using mergeBlocks.induct with
  | case1 => intro hs; simpa [mergeBlocks] using hs
  | case2 b => intro hs; simpa [mergeBlocks] using hs
  | case3 b1 b2 rest h ih =>
    intro hs
    rw [mergeBlocks, if_pos h]
    apply ih
    rw [List.sorted_cons] at hs ⊢
    obtain ⟨h1, hs2⟩ := hs
    rw [List.sorted_cons] at hs2
    exact ⟨fun c hc => h1 c (List.mem_cons_of_mem _ hc), hs2.2⟩
  | case4 b1 b2 rest h ih =>
    intro hs
    rw [mergeBlocks, if_neg h]
    rw [List.sorted_cons] at hs ⊢
    obtain ⟨h1, hs2⟩ := hs
    refine ⟨?_, ih hs2⟩
    intro c hc
    obtain ⟨d, hd, hcd⟩ := mergeBlocks_starts _ c hc
    have hbd := h1 d hd
    unfold leStart at hbd ⊢
    omega

theorem mergeBlocks_chain :
    ∀ l : List (Int × Int),
      (mergeBlocks l).Chain' (fun b c => b.1 + b.2 ≠ c.1) := by
  intro l
  induction l using mergeBlocks.induct with
  | case1 => simp [mergeBlocks]
  | case2 b => simp [mergeBlocks]
  | case3 b1 b2 rest h ih => rw [mergeBlocks, if_pos h]; exact ih
  | case4 b1 b2 rest h ih =>
    rw [mergeBlocks, if_neg h]
    rw [List.chain'_cons']
    refine ⟨?_, ih⟩
    intro y hy
    have hh := mergeBlocks_head_fst (b2 :: rest)
    have hy2 : (mergeBlocks (b2 :: rest)).head? = some y := hy
    rw [hy2] at hh
    simp only [Option.map_some, List.head?_cons] at hh
    have : y.1 = b2.1 := by simpa using hh
    rw [this]
    exact h

theorem mergeBlocks_of_chain :
    ∀ l : List (Int × Int),
      l.Chain' (fun b c => b.1 + b.2 ≠ c.1) → mergeBlocks l = l := by
  intro l
  induction l using mergeBlocks.induct with
  | case1 => intro _; simp [mergeBlocks]
  | case2 b => intro _; simp [mergeBlocks]
  | case3 b1 b2 rest h ih =>
    intro hc
    rw [List.chain'_cons] at hc
    exact absurd h hc.1
  | case4 b1 b2 rest h ih =>
    intro hc
    rw [List.chain'_cons] at hc
    rw [mergeBlocks, if_neg h, ih hc.2]

/-- C10: coalescing is idempotent — for every free list, applying
`merge_free_list` twice yields the same ranges as applying it once
(proved for all inputs, in particular for lists of disjoint ranges). -/
theorem merge_free_list_idempotent (fl : List (Int × Int)) :
    merge_free_list (merge_free_list fl) = merge_free_list fl := by
  unfold merge_free_list
  have hs : (sortStart fl).Sorted leStart := List.sorted_insertionSort leStart fl
  have hs2 : (mergeBlocks (sortStart fl)).Sorted leStart := mergeBlocks_sorted _ hs
  have heq : sortStart (mergeBlocks (sortStart fl)) = mergeBlocks (sortStart fl) := by
    unfold sortStart
    exact hs2.insertionSort_eq
  rw [heq, mergeBlocks_of_chain _ (mergeBlocks_chain _)]

/-! Characterization of the first-fit scan `allocate_segment`. -/

theorem allocate_segment_fail : ∀ (size : Int) (fl : List (Int × Int)),
    (∀ b ∈ fl, b.2 < size) → allocate_segment fl size = (none, fl) := by
  intro size fl
  induction fl with
  | nil => intro _; rfl
  | cons b t ih =>
    intro h
    obtain ⟨s, f⟩ := b
    have hb : f < size := h (s, f) (List.mem_cons_self _ _)
    have ht := ih (fun c hc => h c (List.mem_cons_of_mem _ hc))
    simp [allocate_segment, not_le.mpr hb, ht]

theorem allocate_segment_spec : ∀ (size : Int) (fl : List (Int × Int))
    (a : Int) (fl2 : List (Int × Int)),
    allocate_segment fl size = (some a, fl2) →
    ∃ pre n post, fl = pre ++ (a, n) :: post ∧ size ≤ n ∧
      (∀ b ∈ pre, b.2 < size) ∧
      fl2 = pre ++ (if n = size then post else (a + size, n - size) :: post) := by
  intro size fl
  induction fl with
  | nil => intro a fl2 h; exact absurd h (by simp [allocate_segment])
  | cons b t ih =>
    intro a fl2 h
    obtain ⟨s, f⟩ := b
    by_cases hle : size ≤ f
    · by_cases heq : f = size
      · rw [allocate_segment, if_pos hle, if_pos heq] at h
        simp only [Prod.mk.injEq, Option.some.injEq] at h
        obtain ⟨rfl, rfl⟩ := h
        exact ⟨[], f, t, by simp, hle, by simp, by simp [heq]⟩
      · rw [allocate_segment, if_pos hle, if_neg heq] at h
        simp only [Prod.mk.injEq, Option.some.injEq] at h
        obtain ⟨rfl, rfl⟩ := h
        exact ⟨[], f, t, by simp, hle, by simp, by simp [heq]⟩
    · rcases hts : allocate_segment t size with ⟨r1, r2⟩
      rw [allocate_segment, if_neg hle] at h
      simp only [hts, Prod.mk.injEq] at h
      obtain ⟨h1, h2⟩ := h
      subst h1
      obtain ⟨pre, n, post, g1, g2, g3, g4⟩ := ih a r2 hts
      refine ⟨(s, f) :: pre, n, post, by simp [g1], g2, ?_, ?_⟩
      · intro c hc
        rcases List.mem_cons.mp hc with rfl | hc
        · exact not_le.mp hle
        · exact g3 c hc
      · rw [← h2, g4]
        simp

/-- C8: first-fit allocation.  The concrete example: from free ranges
`[(0,10),(20,5),(30,8)]` a request of size 5 is served at start 0 and
leaves `(5,5)` as the shrunk remainder.  In general, on a free list in
ascending start order: if no range is large enough the allocation
fails and the free list is unchanged; otherwise the returned start is
the start of the first (and lowest-starting) range with length ≥ size,
which is removed on an exact match and otherwise advanced by `size`
with its length reduced by `size`. -/
theorem first_fit_characterization :
    allocate_segment [(0, 10), (20, 5), (30, 8)] 5 =
        (some 0, [(5, 5), (20, 5), (30, 8)]) ∧
      ∀ (fl : List (Int × Int)) (size : Int), fl.Sorted leStart →
        ((∀ b ∈ fl, b.2 < size) → allocate_segment fl size = (none, fl)) ∧
        ∀ (a : Int) (fl2 : List (Int × Int)),
          allocate_segment fl size = (some a, fl2) →
          ∃ pre n post, fl = pre ++ (a, n) :: post ∧ size ≤ n ∧
            (∀ b ∈ pre, b.2 < size) ∧
            (∀ b ∈ fl, size ≤ b.2 → a ≤ b.1) ∧
            fl2 = pre ++ (if n = size then post else (a + size, n - size) :: post) := by
  refine ⟨by decide, ?_⟩
  intro fl size hsort
  refine ⟨allocate_segment_fail size fl, ?_⟩
  intro a fl2 h
  obtain ⟨pre, n, post, g1, g2, g3, g4⟩ := allocate_segment_spec size fl a fl2 h
  refine ⟨pre, n, post, g1, g2, g3, ?_, g4⟩
  intro b hb hbs
  rw [g1] at hsort hb
  rw [List.Sorted, List.pairwise_append] at hsort
  rcases List.mem_append.mp hb with hb | hb
  · exact absurd hbs (not_le.mpr (g3 b hb))
  · rcases List.mem_cons.mp hb with rfl | hb
    · exact le_refl _
    · exact (List.sorted_cons.mp hsort.2.1).1 b hb

/-- C6 (counterexample): after the successful command `allocate a -5`
on a 100-unit memory, the blocks are not a partition of `[0, 100)`:
address `-1` lies in the free block `(-5, 105)`. -/
theorem coverage_broken_by_negative_size :
    ¬ SegGood 100 (run_segmentation 100 [Cmd.alloc "a" (-5)]) := by
  intro h
  have h2 := (h.2 (-1)).mp ⟨(-5, 105), by decide, by decide⟩
  omega

/-- C8 witness: the general characterization applied to the sorted free
list `[(0,10),(20,5),(30,8)]` with an unsatisfiable request of size 20. -/
theorem first_fit_characterization_witness :
    ([((0 : Int), (10 : Int)), (20, 5), (30, 8)] : List (Int × Int)).Sorted leStart ∧
      (∀ b ∈ ([((0 : Int), (10 : Int)), (20, 5), (30, 8)] : List (Int × Int)), b.2 < 20) ∧
      allocate_segment [(0, 10), (20, 5), (30, 8)] 20 =
        (none, [(0, 10), (20, 5), (30, 8)]) :=
  ⟨by decide, by decide,
    (first_fit_characterization.2 [(0, 10), (20, 5), (30, 8)] 20 (by decide)).1 (by decide)⟩

/-! Lemmas towards the allocation/deallocation round trip. -/

theorem wf_chain_pos : ∀ l : List (Int × Int), WFfree l → l.Chain' endLtPos := by
  intro l
  induction l with
  | nil => intro _; simp
  | cons b t ih =>
    intro h
    obtain ⟨hc, hp⟩ := h
    rw [List.chain'_cons'] at hc
    rw [List.chain'_cons']
    refine ⟨?_, ih ⟨hc.2, fun c hcm => hp c (List.mem_cons_of_mem _ hcm)⟩⟩
    intro y hy
    exact ⟨hc.1 y hy, hp b (List.mem_cons_self _ _),
      hp y (List.mem_cons_of_mem _ (List.mem_of_mem_head? hy))⟩

theorem wf_pairwise (l : List (Int × Int)) (h : WFfree l) : l.Pairwise endLtPos :=
  List.chain'_iff_pairwise.mp (wf_chain_pos l h)

theorem sortStart_eq_of_perm_strict (l t : List (Int × Int))
    (hperm : l.Perm t) (hstrict : t.Pairwise ltStart) : sortStart l = t := by
  have h1 : (sortStart l).Perm t := (List.perm_insertionSort leStart l).trans hperm
  have hst : t.Sorted ltStartEq := hstrict.imp (fun h => Or.inl h)
  have hss : (sortStart l).Pairwise leStart := List.sorted_insertionSort leStart l
  have htne : t.Pairwise (fun b c : Int × Int => b.1 ≠ c.1) :=
    hstrict.imp (fun h => by omega)
  have hne : (sortStart l).Pairwise (fun b c : Int × Int => b.1 ≠ c.1) :=
    (List.Perm.pairwise_iff (fun hxy => hxy.symm) h1).mpr htne
  have hsl : (sortStart l).Sorted ltStartEq :=
    (hss.and hne).imp (fun h => Or.inl (lt_of_le_of_ne h.1 h.2))
  exact List.eq_of_perm_of_sorted h1 hsl hst

theorem mergeBlocks_append_chain :
    ∀ (pre : List (Int × Int)) (b : Int × Int) (rest : List (Int × Int)),
      (pre ++ [b]).Chain' (fun x y => x.1 + x.2 ≠ y.1) →
      mergeBlocks (pre ++ b :: rest) = pre ++ mergeBlocks (b :: rest) := by
  intro pre
  induction pre with
  | nil => intro b rest _; rfl
  | cons p pre2 ih =>
    intro b rest hc
    cases pre2 with
    | nil =>
      simp only [List.cons_append, List.nil_append, List.chain'_cons] at hc
      simpa using mergeBlocks_cons_ne p b rest hc.1
    | cons q pre3 =>
      simp only [List.cons_append, List.chain'_cons] at hc
      have hih := ih b rest (by
        simp only [List.cons_append]
        exact hc.2)
      simp only [List.cons_append] at hih ⊢
      rw [mergeBlocks_cons_ne p q _ hc.1, hih]

/-- C9: allocating any positive size that the free list can satisfy and
then immediately deallocating the returned range (re-inserting it and
coalescing) restores a coalesced free list — one with disjoint,
non-adjacent, positively-sized ranges in ascending order — exactly. -/
theorem allocate_deallocate_round_trip
    (fl : List (Int × Int)) (size a : Int) (fl2 : List (Int × Int))
    (hwf : WFfree fl) (hpos : 0 < size)
    (halloc : allocate_segment fl size = (some a, fl2)) :
    merge_free_list (fl2 ++ [(a, size)]) = fl := by
  obtain ⟨pre, n, post, g1, g2, g3, g4⟩ := allocate_segment_spec size fl a fl2 halloc
  have hpw := wf_pairwise fl hwf
  rw [g1, List.pairwise_append] at hpw
  obtain ⟨hpre, hmid, hcross⟩ := hpw
  rw [List.pairwise_cons] at hmid
  obtain ⟨han_post, hpost⟩ := hmid
  have hpre_a : ∀ b ∈ pre, b.1 + b.2 < a ∧ 0 < b.2 := by
    intro b hb
    have h := hcross b hb (a, n) (List.mem_cons_self _ _)
    exact ⟨h.1, h.2.1⟩
  have hn : 0 < n := lt_of_lt_of_le hpos g2
  have hchainfl : fl.Chain' (fun x y => x.1 + x.2 ≠ y.1) :=
    hwf.1.imp (fun _ _ h => ne_of_lt h)
  by_cases heq : n = size
  · rw [if_pos heq] at g4
    subst g4
    have hA : sortStart ((pre ++ post) ++ [(a, size)]) = pre ++ (a, size) :: post := by
      apply sortStart_eq_of_perm_strict
      · rw [List.append_assoc]
        exact List.Perm.append_left pre (List.perm_append_singleton _ _)
      · rw [List.pairwise_append]
        refine ⟨hpre.imp (fun h => by simp only [ltStart]; omega), ?_, ?_⟩
        · rw [List.pairwise_cons]
          refine ⟨fun c hc => ?_, hpost.imp (fun h => by simp only [ltStart]; omega)⟩
          have h := han_post c hc
          simp only [ltStart]
          omega
        · intro b hb c hc
          rcases List.mem_cons.mp hc with rfl | hc
          · have h := hpre_a b hb
            simp only [ltStart]
            omega
          · have h := hcross b hb c (List.mem_cons_of_mem _ hc)
            simp only [ltStart]
            omega
    unfold merge_free_list
    rw [hA]
    have hsame : ((a, size) : Int × Int) = (a, n) := by rw [heq]
    rw [hsame, ← g1]
    exact mergeBlocks_of_chain fl hchainfl
  · rw [if_neg heq] at g4
    subst g4
    have hsz : size < n := lt_of_le_of_ne g2 (fun hh => heq hh.symm)
    have hA : sortStart ((pre ++ (a + size, n - size) :: post) ++ [(a, size)]) =
        pre ++ (a, size) :: (a + size, n - size) :: post := by
      apply sortStart_eq_of_perm_strict
      · exact (List.perm_append_singleton _ _).trans List.perm_middle.symm
      · rw [List.pairwise_append]
        refine ⟨hpre.imp (fun h => by simp only [ltStart]; omega), ?_, ?_⟩
        · rw [List.pairwise_cons, List.pairwise_cons]
          refine ⟨fun c hc => ?_, fun c hc => ?_, hpost.imp (fun h => by simp only [ltStart]; omega)⟩
          · rcases List.mem_cons.mp hc with rfl | hc
            · simp only [ltStart]
              omega
            · have h := han_post c hc
              simp only [ltStart]
              omega
          · have h := han_post c hc
            simp only [ltStart]
            omega
        · intro b hb c hc
          have hba := hpre_a b hb
          rcases List.mem_cons.mp hc with rfl | hc
          · simp only [ltStart]; omega
          · rcases List.mem_cons.mp hc with rfl | hc
            · simp only [ltStart]; omega
            · have h := hcross b hb c (List.mem_cons_of_mem _ hc)
              simp only [ltStart]
              omega
    unfold merge_free_list
    rw [hA]
    have hchainpre : (pre ++ [((a : Int), size)]).Chain' (fun x y => x.1 + x.2 ≠ y.1) := by
      apply List.Pairwise.chain'
      rw [List.pairwise_append]
      refine ⟨hpre.imp (fun h => by omega), List.pairwise_singleton _ _, ?_⟩
      intro b hb c hc
      rcases List.mem_singleton.mp hc with rfl
      have h := hpre_a b hb
      simp only []
      omega
    rw [mergeBlocks_append_chain pre (a, size) _ hchainpre]
    have hinner : mergeBlocks ((a, size) :: (a + size, n - size) :: post) = (a, n) :: post := by
      rw [mergeBlocks, if_pos rfl]
      have hsum : size + (n - size) = n := by ring
      rw [show ((a : Int), size + (n - size)) = (a, n) from by rw [hsum]]
      apply mergeBlocks_of_chain
      apply List.Pairwise.chain'
      rw [List.pairwise_cons]
      refine ⟨fun c hc => ?_, hpost.imp (fun h => by omega)⟩
      have h := han_post c hc
      simp only []
      omega
    rw [hinner]
    exact g1.symm

/-- C9 witness: a concrete round trip on the coalesced free list
`[(0,10),(20,5)]` with a request of size 4. -/
theorem allocate_deallocate_round_trip_witness :
    WFfree [((0 : Int), (10 : Int)), (20, 5)] ∧ (0 : Int) < 4 ∧
      allocate_segment [((0 : Int), (10 : Int)), (20, 5)] 4 = (some 0, [(4, 6), (20, 5)]) ∧
      merge_free_list ([((4 : Int), (6 : Int)), (20, 5)] ++ [(0, 4)]) = [(0, 10), (20, 5)] :=
  ⟨by constructor
      · simp [List.chain'_cons]
      · decide,
    by decide, by decide,
    allocate_deallocate_round_trip [(0, 10), (20, 5)] 4 0 [(4, 6), (20, 5)]
      (by constructor
          · simp [List.chain'_cons]
          · decide)
      (by decide) (by decide)⟩

/-! Lemmas about page-replacement state: the replace-in-slot update. -/

theorem frameIndex_set_mem (l : List Int) (a b : Int) (ha : a ∈ l) (hn : l.Nodup) :
    ∀ p : Int, p ∈ l.set (frameIndex a l) b ↔ (p ∈ l ∧ p ≠ a) ∨ p = b := by
  induction l with
  | nil => cases ha
  | cons c t ih =>
    intro p
    rw [List.nodup_cons] at hn
    by_cases hca : c = a
    · subst hca
      rw [frameIndex, if_pos rfl]
      simp only [List.set]
      constructor
      · intro hp
        rcases List.mem_cons.mp hp with rfl | hp
        · right; rfl
        · exact Or.inl ⟨List.mem_cons_of_mem _ hp, fun hpc => hn.1 (hpc ▸ hp)⟩
      · intro hp
        rcases hp with ⟨hpl, hpa⟩ | rfl
        · rcases List.mem_cons.mp hpl with rfl | hpl
          · exact absurd rfl hpa
          · exact List.mem_cons_of_mem _ hpl
        · exact List.mem_cons_self _ _
    · rw [frameIndex, if_neg hca]
      simp only [List.set]
      have ha2 : a ∈ t := by
        rcases List.mem_cons.mp ha with rfl | h
        · exact absurd rfl hca
        · exact h
      have hpc : p = c → p ≠ a := fun h1 h2 => hca (h1.symm.trans h2)
      rw [List.mem_cons, ih ha2 hn.2 p, List.mem_cons]
      constructor
      · rintro (rfl | (⟨hpt, hpa⟩ | rfl))
        · exact Or.inl ⟨Or.inl rfl, hpc rfl⟩
        · exact Or.inl ⟨Or.inr hpt, hpa⟩
        · exact Or.inr rfl
      · rintro (⟨rfl | hpt, hpa⟩ | rfl)
        · exact Or.inl rfl
        · exact Or.inr (Or.inl ⟨hpt, hpa⟩)
        · exact Or.inr (Or.inr rfl)

theorem frameIndex_set_nodup (l : List Int) (a b : Int) (ha : a ∈ l) (hb : b ∉ l)
    (hn : l.Nodup) : (l.set (frameIndex a l) b).Nodup := by
  induction l with
  | nil => simp
  | cons c t ih =>
    rw [List.nodup_cons] at hn
    by_cases hca : c = a
    · subst hca
      rw [frameIndex, if_pos rfl]
      simp only [List.set]
      rw [List.nodup_cons]
      exact ⟨fun hbt => hb (List.mem_cons_of_mem _ hbt), hn.2⟩
    · rw [frameIndex, if_neg hca]
      simp only [List.set]
      rw [List.nodup_cons]
      have ha2 : a ∈ t := by
        rcases List.mem_cons.mp ha with rfl | h
        · exact absurd rfl hca
        · exact h
      refine ⟨?_, ih ha2 (fun hbt => hb (List.mem_cons_of_mem _ hbt)) hn.2⟩
      intro hcs
      rcases (frameIndex_set_mem t a b ha2 hn.2 c).mp hcs with ⟨hct, _⟩ | rfl
      · exact hn.1 hct
      · exact hb (List.mem_cons_self _ _)

/-! Preservation and totality of the FIFO step. -/

theorem fifoStep_preserves (fc : Nat) (st st2 : PageSt) (page : Int)
    (h : fifoStep fc st page = some st2) (hinv : PInv fc st) :
    PInv fc st2 ∧ st2.states.length = st.states.length + 1 := by
  obtain ⟨hnf, hno, hmem, hlen, hfau, hsl⟩ := hinv
  unfold fifoStep at h
  by_cases h1 : page ∈ st.frames
  · rw [if_pos h1] at h
    simp only [Option.some.injEq] at h
    subst h
    refine ⟨⟨hnf, hno, hmem, hlen, ?_, ?_⟩, by simp⟩
    · simp [List.countP_append, hfau]
    · simp [hsl]
  · rw [if_neg h1] at h
    by_cases h2 : st.frames.length < fc
    · rw [if_pos h2] at h
      simp only [Option.some.injEq] at h
      subst h
      have hpo : page ∉ st.order := fun hp => h1 ((hmem page).mp hp)
      refine ⟨⟨?_, ?_, ?_, ?_, ?_, ?_⟩, by simp⟩
      · rw [List.nodup_append]
        exact ⟨hnf, List.nodup_singleton _, by simp [List.disjoint_singleton, h1]⟩
      · rw [List.nodup_append]
        exact ⟨hno, List.nodup_singleton _, by simp [List.disjoint_singleton, hpo]⟩
      · intro p
        simp only [List.mem_append, List.mem_singleton, hmem p]
      · simp only [List.length_append, List.length_singleton]
        omega
      · simp [List.countP_append, hfau]
      · simp [hsl]
    · rw [if_neg h2] at h
      cases ho : st.order with
      | nil =>
        rw [ho] at h
        simp only [] at h
        cases h
      | cons old rest =>
        rw [ho] at h
        simp only [] at h
        by_cases h3 : old ∈ st.frames
        · rw [if_pos h3] at h
          simp only [Option.some.injEq] at h
          subst h
          have hrn : rest.Nodup ∧ old ∉ rest := by
            rw [ho, List.nodup_cons] at hno
            exact ⟨hno.2, hno.1⟩
          have hpo : page ∉ st.order := fun hp => h1 ((hmem page).mp hp)
          have hpr : page ∉ rest := fun hp => hpo (ho ▸ List.mem_cons_of_mem _ hp)
          have hmem2 := frameIndex_set_mem st.frames old page h3 hnf
          refine ⟨⟨frameIndex_set_nodup st.frames old page h3 h1 hnf, ?_, ?_, ?_, ?_, ?_⟩,
            by simp⟩
          · rw [List.nodup_append]
            exact ⟨hrn.1, List.nodup_singleton _, by simp [List.disjoint_singleton, hpr]⟩
          · intro p
            rw [hmem2 p]
            simp only [List.mem_append, List.mem_singleton]
            constructor
            · rintro (hp | rfl)
              · refine Or.inl ⟨(hmem p).mp (ho ▸ List.mem_cons_of_mem _ hp), ?_⟩
                intro hpold
                exact hrn.2 (hpold ▸ hp)
              · exact Or.inr rfl
            · rintro (⟨hpf, hpold⟩ | rfl)
              · have hp : p ∈ st.order := (hmem p).mpr hpf
                rw [ho, List.mem_cons] at hp
                rcases hp with rfl | hp
                · exact absurd rfl hpold
                · exact Or.inl hp
              · exact Or.inr rfl
          · simpa [List.length_set] using hlen
          · simp [List.countP_append, hfau]
          · simp [hsl]
        · rw [if_neg h3] at h
          cases h

theorem fifoStep_total (fc : Nat) (hfc : 1 ≤ fc) (st : PageSt) (page : Int)
    (hinv : PInv fc st) : ∃ st2, fifoStep fc st page = some st2 := by
  obtain ⟨hnf, hno, hmem, hlen, _, _⟩ := hinv
  unfold fifoStep
  by_cases h1 : page ∈ st.frames
  · rw [if_pos h1]
    exact ⟨_, rfl⟩
  · rw [if_neg h1]
    by_cases h2 : st.frames.length < fc
    · rw [if_pos h2]
      exact ⟨_, rfl⟩
    · rw [if_neg h2]
      have hfne : st.frames ≠ [] := by
        intro hh
        rw [hh] at h2
        simp at h2
        omega
      obtain ⟨q, hq⟩ := List.exists_mem_of_ne_nil st.frames hfne
      have hone : st.order ≠ [] := by
        intro hh
        have := (hmem q).mpr hq
        rw [hh] at this
        cases this
      cases ho : st.order with
      | nil => exact absurd ho hone
      | cons old rest =>
        have hof : old ∈ st.frames := (hmem old).mp (ho ▸ List.mem_cons_self _ _)
        simp only []
        rw [if_pos hof]
        exact ⟨_, rfl⟩

/-! Preservation and totality of the LRU step.  On a miss the LRU body
is literally the FIFO body, so those branches are shared. -/

theorem lru_fifo_miss (fc : Nat) (st : PageSt) (page : Int) (h1 : page ∉ st.frames) :
    lruStep fc st page = fifoStep fc st page := by
  unfold lruStep fifoStep
  rw [if_neg h1, if_neg h1]

theorem lruStep_preserves (fc : Nat) (st st2 : PageSt) (page : Int)
    (h : lruStep fc st page = some st2) (hinv : PInv fc st) :
    PInv fc st2 ∧ st2.states.length = st.states.length + 1 := by
  by_cases h1 : page ∈ st.frames
  · obtain ⟨hnf, hno, hmem, hlen, hfau, hsl⟩ := hinv
    unfold lruStep at h
    rw [if_pos h1] at h
    by_cases h0 : page ∈ st.order
    · rw [if_pos h0] at h
      simp only [Option.some.injEq] at h
      subst h
      have herase : ∀ p : Int, p ∈ st.order.erase page ↔ p ≠ page ∧ p ∈ st.order :=
        fun p => hno.mem_erase_iff
      refine ⟨⟨hnf, ?_, ?_, hlen, ?_, ?_⟩, by simp⟩
      · rw [List.nodup_append]
        refine ⟨hno.erase _, List.nodup_singleton _, ?_⟩
        simp only [List.disjoint_singleton]
        intro hp
        exact ((herase page).mp hp).1 rfl
      · intro p
        simp only [List.mem_append, List.mem_singleton, herase p]
        constructor
        · rintro (⟨_, hp⟩ | rfl)
          · exact (hmem p).mp hp
          · exact h1
        · intro hp
          by_cases hpp : p = page
          · exact Or.inr hpp
          · exact Or.inl ⟨hpp, (hmem p).mpr hp⟩
      · simp [List.countP_append, hfau]
      · simp [hsl]
    · rw [if_neg h0] at h
      cases h
  · rw [lru_fifo_miss fc st page h1] at h
    exact fifoStep_preserves fc st st2 page h hinv

theorem lruStep_total (fc : Nat) (hfc : 1 ≤ fc) (st : PageSt) (page : Int)
    (hinv : PInv fc st) : ∃ st2, lruStep fc st page = some st2 := by
  by_cases h1 : page ∈ st.frames
  · obtain ⟨_, _, hmem, _, _, _⟩ := hinv
    unfold lruStep
    rw [if_pos h1, if_pos ((hmem page).mpr h1)]
    exact ⟨_, rfl⟩
  · rw [lru_fifo_miss fc st page h1]
    exact fifoStep_total fc hfc st page hinv

/-! Run-level invariant and totality, shared between the policies. -/

theorem pageRun_inv (step : Nat → PageSt → Int → Option PageSt)
    (hstep : ∀ fc st st2 page, step fc st page = some st2 → PInv fc st →
      PInv fc st2 ∧ st2.states.length = st.states.length + 1) :
    ∀ (seq : List Int) (fc : Nat) (st st2 : PageSt),
      pageRun step fc st seq = some st2 → PInv fc st →
      PInv fc st2 ∧ st2.states.length = st.states.length + seq.length := by
  intro seq
  induction seq with
  | nil =>
    intro fc st st2 h hinv
    simp only [pageRun, Option.some.injEq] at h
    subst h
    exact ⟨hinv, by simp⟩
  | cons p ps ih =>
    intro fc st st2 h hinv
    rw [pageRun] at h
    cases hs : step fc st p with
    | none =>
      rw [hs] at h
      simp only [] at h
      cases h
    | some stm =>
      rw [hs] at h
      simp only [] at h
      obtain ⟨hinv2, hlen2⟩ := hstep fc st stm p hs hinv
      obtain ⟨hinv3, hlen3⟩ := ih fc stm st2 h hinv2
      refine ⟨hinv3, ?_⟩
      simp only [List.length_cons]
      omega

theorem pageRun_total (step : Nat → PageSt → Int → Option PageSt)
    (hpres : ∀ fc st st2 page, step fc st page = some st2 → PInv fc st →
      PInv fc st2 ∧ st2.states.length = st.states.length + 1)
    (htot : ∀ fc, 1 ≤ fc → ∀ st page, PInv fc st → ∃ st2, step fc st page = some st2) :
    ∀ (seq : List Int) (fc : Nat), 1 ≤ fc → ∀ st : PageSt, PInv fc st →
      ∃ st2, pageRun step fc st seq = some st2 := by
  intro seq
  induction seq with
  | nil =>
    intro fc _ st _
    exact ⟨st, rfl⟩
  | cons p ps ih =>
    intro fc hfc st hinv
    obtain ⟨stm, hs⟩ := htot fc hfc st p hinv
    obtain ⟨hinv2, _⟩ := hpres fc st stm p hs hinv
    obtain ⟨st2, h2⟩ := ih fc hfc stm hinv2
    refine ⟨st2, ?_⟩
    rw [pageRun, hs]
    simp only []
    exact h2

theorem pinv_init (fc : Nat) : PInv fc pageInit :=
  ⟨List.nodup_nil, List.nodup_nil, fun p => by simp [pageInit],
    by simp [pageInit], rfl, rfl⟩

/-- C5: for every `frame_count ≥ 1` and every reference sequence, both
engines return (no exception), the trace has one snapshot per
reference, and the fault count equals the number of `true` fault
flags. -/
theorem trace_length_and_fault_count (fc : Nat) (hfc : 1 ≤ fc) (seq : List Int) :
    (∃ states faults flags, simulate_fifo seq fc = some (states, faults, flags) ∧
        states.length = seq.length ∧ faults = flags.countP (fun b => b)) ∧
      ∃ states faults flags, simulate_lru seq fc = some (states, faults, flags) ∧
        states.length = seq.length ∧ faults = flags.countP (fun b => b) := by
  constructor
  · obtain ⟨st2, hrun⟩ :=
      pageRun_total fifoStep fifoStep_preserves fifoStep_total seq fc hfc pageInit (pinv_init fc)
    obtain ⟨hinv2, hlen⟩ :=
      pageRun_inv fifoStep fifoStep_preserves seq fc pageInit st2 hrun (pinv_init fc)
    refine ⟨st2.states, st2.faults, st2.flags, ?_, ?_, hinv2.2.2.2.2.1⟩
    · simp [simulate_fifo, hrun]
    · simpa [pageInit] using hlen
  · obtain ⟨st2, hrun⟩ :=
      pageRun_total lruStep lruStep_preserves lruStep_total seq fc hfc pageInit (pinv_init fc)
    obtain ⟨hinv2, hlen⟩ :=
      pageRun_inv lruStep lruStep_preserves seq fc pageInit st2 hrun (pinv_init fc)
    refine ⟨st2.states, st2.faults, st2.flags, ?_, ?_, hinv2.2.2.2.2.1⟩
    · simp [simulate_lru, hrun]
    · simpa [pageInit] using hlen

/-- C5 witness: the guarantee applied to the reference sequence with 3
frames. -/
theorem trace_length_and_fault_count_witness :
    (1 ≤ 3) ∧
      (∃ states faults flags, simulate_fifo refSeq 3 = some (states, faults, flags) ∧
        states.length = refSeq.length ∧ faults = flags.countP (fun b => b)) :=
  ⟨by decide, (trace_length_and_fault_count 3 (by decide) refSeq).1⟩

/-- C7: whenever a paging run completes (in particular after each
reference — every prefix of the input is itself a run), the member set
of the policy's ordering structure (FIFO insertion queue, LRU recency
list) equals the set of pages in the frame table. -/
theorem ordering_matches_resident (fc : Nat) (seq : List Int) (st2 : PageSt) :
    (pageRun fifoStep fc pageInit seq = some st2 →
      ∀ p : Int, p ∈ st2.order ↔ p ∈ st2.frames) ∧
    (pageRun lruStep fc pageInit seq = some st2 →
      ∀ p : Int, p ∈ st2.order ↔ p ∈ st2.frames) := by
  constructor
  · intro h
    exact (pageRun_inv fifoStep fifoStep_preserves seq fc pageInit st2 h
      (pinv_init fc)).1.2.2.1
  · intro h
    exact (pageRun_inv lruStep lruStep_preserves seq fc pageInit st2 h
      (pinv_init fc)).1.2.2.1

/-- C7 witness: the invariant read off after running both policies on
`[7, 0]` with 3 frames. -/
theorem ordering_matches_resident_witness :
    (pageRun fifoStep 3 pageInit [7, 0] =
        some ⟨[7, 0], [7, 0], [[some 7, none, none], [some 7, some 0, none]],
          [true, true], 2⟩) ∧
      ((7 : Int) ∈ (⟨[7, 0], [7, 0], [[some 7, none, none], [some 7, some 0, none]],
          [true, true], 2⟩ : PageSt).order ↔
        (7 : Int) ∈ (⟨[7, 0], [7, 0], [[some 7, none, none], [some 7, some 0, none]],
          [true, true], 2⟩ : PageSt).frames) :=
  ⟨by decide,
    (ordering_matches_resident 3 [7, 0]
      ⟨[7, 0], [7, 0], [[some 7, none, none], [some 7, some 0, none]],
        [true, true], 2⟩).1 (by decide) 7⟩

/-! Counting lemmas for the partition invariant of the segment
allocator. -/

theorem covCount_cons (b : Int × Int) (l : List (Int × Int)) (x : Int) :
    covCount (b :: l) x = (if blockMem b x then 1 else 0) + covCount l x := by
  unfold covCount
  rw [List.countP_cons]
  by_cases h : blockMem b x
  · rw [if_pos (decide_eq_true h), if_pos h]
    omega
  · rw [if_neg (by simp [h]), if_neg h]
    omega

theorem covCount_nil (x : Int) : covCount [] x = 0 := rfl

theorem covCount_append (l1 l2 : List (Int × Int)) (x : Int) :
    covCount (l1 ++ l2) x = covCount l1 x + covCount l2 x := by
  unfold covCount
  rw [List.countP_append]

theorem covCount_perm (l1 l2 : List (Int × Int)) (h : l1.Perm l2) (x : Int) :
    covCount l1 x = covCount l2 x :=
  h.countP_eq _

theorem covCount_split (s n1 n2 : Int) (h1 : 0 ≤ n1) (h2 : 0 ≤ n2) (x : Int) :
    (if blockMem (s, n1 + n2) x then 1 else 0) =
      (if blockMem (s, n1) x then 1 else 0) +
        (if blockMem (s + n1, n2) x then 1 else 0) := by
  simp only [blockMem]
  split_ifs <;> omega

theorem mergeBlocks_sizesNN :
    ∀ l : List (Int × Int), sizesNN l → sizesNN (mergeBlocks l) := by
  intro l
  induction l using mergeBlocks.induct with
  | case1 => intro h; simpa [mergeBlocks] using h
  | case2 b => intro h; simpa [mergeBlocks] using h
  | case3 b1 b2 rest h ih =>
    intro hnn
    rw [mergeBlocks, if_pos h]
    apply ih
    intro c hc
    rcases List.mem_cons.mp hc with rfl | hc
    · have h1 := hnn b1 (by simp)
      have h2 := hnn b2 (by simp)
      dsimp only
      omega
    · exact hnn c (by simp [hc])
  | case4 b1 b2 rest h ih =>
    intro hnn
    rw [mergeBlocks, if_neg h]
    intro c hc
    rcases List.mem_cons.mp hc with rfl | hc
    · exact hnn c (by simp)
    · exact ih (fun d hd => hnn d (List.mem_cons_of_mem _ hd)) c hc

theorem covCount_mergeBlocks :
    ∀ l : List (Int × Int), sizesNN l →
      ∀ x : Int, covCount (mergeBlocks l) x = covCount l x := by
  intro l
  induction l using mergeBlocks.induct with
  | case1 => intro _ x; simp [mergeBlocks]
  | case2 b => intro _ x; simp [mergeBlocks]
  | case3 b1 b2 rest h ih =>
    intro hnn x
    obtain ⟨s1, n1⟩ := b1
    obtain ⟨s2, n2⟩ := b2
    simp only [] at h
    subst h
    rw [mergeBlocks, if_pos rfl]
    have hb1 : (0 : Int) ≤ n1 := hnn (s1, n1) (by simp)
    have hb2 : (0 : Int) ≤ n2 := hnn (s1 + n1, n2) (by simp)
    have hrec := ih (by
      intro c hc
      rcases List.mem_cons.mp hc with rfl | hc
      · dsimp only
        omega
      · exact hnn c (by simp [hc])) x
    rw [hrec]
    dsimp only
    rw [covCount_cons, covCount_cons, covCount_cons]
    have hs := covCount_split s1 n1 n2 hb1 hb2 x
    omega
  | case4 b1 b2 rest h ih =>
    intro hnn x
    rw [mergeBlocks_cons_ne _ _ _ h, covCount_cons, covCount_cons,
      ih (fun d hd => hnn d (List.mem_cons_of_mem _ hd)) x]

theorem covCount_merge_free_list (l : List (Int × Int)) (hnn : sizesNN l) (x : Int) :
    covCount (merge_free_list l) x = covCount l x := by
  unfold merge_free_list
  have hperm : (sortStart l).Perm l := List.perm_insertionSort leStart l
  have hnns : sizesNN (sortStart l) := fun b hb => hnn b (hperm.mem_iff.mp hb)
  rw [covCount_mergeBlocks _ hnns x]
  exact covCount_perm _ _ hperm x

theorem merge_free_list_sizesNN (l : List (Int × Int)) (hnn : sizesNN l) :
    sizesNN (merge_free_list l) := by
  unfold merge_free_list
  exact mergeBlocks_sizesNN _
    (fun b hb => hnn b ((List.perm_insertionSort leStart l).mem_iff.mp hb))

/-! The allocator command step preserves the partition invariant. -/

theorem allocate_segment_none_snd : ∀ (size : Int) (fl : List (Int × Int)),
    (allocate_segment fl size).1 = none → (allocate_segment fl size).2 = fl := by
  intro size fl
  induction fl with
  | nil => intro _; rfl
  | cons b t ih =>
    intro h
    obtain ⟨s, f⟩ := b
    by_cases hle : size ≤ f
    · by_cases heq : f = size <;> simp [allocate_segment, hle, heq] at h
    · simp only [allocate_segment, if_neg hle] at h ⊢
      rw [ih h]

theorem find_eraseP_perm (p : String × (Int × Int) → Bool) :
    ∀ (l : List (String × (Int × Int))) (e : String × (Int × Int)),
      l.find? p = some e → l.Perm (e :: l.eraseP p) := by
  intro l
  induction l with
  | nil => intro e h; cases h
  | cons a t ih =>
    intro e h
    by_cases hp : p a
    · rw [List.find?_cons_of_pos _ hp] at h
      obtain rfl := (Option.some.injEq _ _).mp h
      rw [List.eraseP_cons_of_pos hp]
    · rw [List.find?_cons_of_neg _ hp] at h
      rw [List.eraseP_cons_of_neg hp]
      exact ((ih e h).cons a).trans (List.Perm.swap e a _)

theorem pinv_segInit (M : Int) (hM : 0 ≤ M) : SegInv M (segInit M) := by
  constructor
  · intro b hb
    simp only [segInit, blocksOf, List.map_nil, List.append_nil, List.mem_singleton] at hb
    subst hb
    exact hM
  · intro x
    simp only [segInit, blocksOf, List.map_nil, List.append_nil]
    rw [covCount_cons]
    unfold covCount
    simp only [List.countP_nil, blockMem]
    split_ifs <;> omega

theorem stepCmd_inv (M : Int) (st : SegState) (c : Cmd) (hc : allocPos c = true)
    (hinv : SegInv M st) : SegInv M (stepCmd st c) := by
  obtain ⟨hnn, hcov⟩ := hinv
  have hnnfree : sizesNN st.free := fun b hb => hnn b (List.mem_append_left _ hb)
  have hnnseg : sizesNN (st.segs.map (fun e => e.2)) :=
    fun b hb => hnn b (List.mem_append_right _ hb)
  cases c with
  | alloc id size =>
    have hsize : 0 < size := by simpa [allocPos] using hc
    unfold stepCmd
    simp only []
    by_cases hdup : st.segs.any (fun e => e.1 = id)
    · rw [if_pos hdup]
      exact ⟨hnn, hcov⟩
    · rw [if_neg hdup]
      rcases hr : allocate_segment st.free size with ⟨r1, r2⟩
      cases r1 with
      | none =>
        simp only []
        have hr2 : r2 = st.free := by
          have h2 := allocate_segment_none_snd size st.free
          rw [hr] at h2
          exact h2 rfl
        subst hr2
        exact ⟨hnn, hcov⟩
      | some a =>
        simp only []
        obtain ⟨pre, n, post, g1, g2, g3, g4⟩ := allocate_segment_spec size st.free a r2 hr
        constructor
        · intro b hb
          simp only [blocksOf, List.map_append, List.map_cons, List.map_nil] at hb
          rw [List.mem_append] at hb
          rcases hb with hb | hb
          · rw [g4] at hb
            rw [List.mem_append] at hb
            rcases hb with hb | hb
            · exact hnnfree b (g1 ▸ List.mem_append_left _ hb)
            · by_cases heq : n = size
              · rw [if_pos heq] at hb
                exact hnnfree b (g1 ▸ List.mem_append_right _ (List.mem_cons_of_mem _ hb))
              · rw [if_neg heq] at hb
                rcases List.mem_cons.mp hb with rfl | hb
                · dsimp only
                  omega
                · exact hnnfree b (g1 ▸ List.mem_append_right _ (List.mem_cons_of_mem _ hb))
          · rcases List.mem_append.mp hb with hb | hb
            · exact hnnseg b hb
            · rcases List.mem_singleton.mp hb with rfl
              dsimp only
              omega
        · intro x
          have hbase := hcov x
          simp only [blocksOf] at hbase ⊢
          rw [covCount_append] at hbase
          rw [g1, covCount_append, covCount_cons] at hbase
          simp only [List.map_append, List.map_cons, List.map_nil]
          rw [covCount_append, g4, covCount_append, covCount_append, covCount_cons]
          have hnnn : (0 : Int) ≤ n := by omega
          rw [covCount_nil]
          by_cases heq : n = size
          · rw [if_pos heq]
            subst heq
            omega
          · rw [if_neg heq]
            rw [covCount_cons]
            have hs := covCount_split a size (n - size) (by omega) (by omega) x
            rw [show size + (n - size) = n from by ring] at hs
            omega
  | dealloc id =>
    cases hf : st.segs.find? (fun e => e.1 = id) with
    | none =>
      have hstep : stepCmd st (Cmd.dealloc id) = st := by
        show (match st.segs.find? (fun e => e.1 = id) with
            | none => st
            | some e => (⟨merge_free_list (st.free ++ [e.2]),
                st.segs.eraseP (fun x => x.1 = id)⟩ : SegState)) = st
        rw [hf]
      rw [hstep]
      exact ⟨hnn, hcov⟩
    | some e =>
      have hstep : stepCmd st (Cmd.dealloc id) =
          ⟨merge_free_list (st.free ++ [e.2]), st.segs.eraseP (fun x => x.1 = id)⟩ := by
        show (match st.segs.find? (fun e => e.1 = id) with
            | none => st
            | some e => (⟨merge_free_list (st.free ++ [e.2]),
                st.segs.eraseP (fun x => x.1 = id)⟩ : SegState)) =
          ⟨merge_free_list (st.free ++ [e.2]), st.segs.eraseP (fun x => x.1 = id)⟩
        rw [hf]
      rw [hstep]
      have hperm := find_eraseP_perm _ st.segs e hf
      have hmem : e ∈ st.segs := List.mem_of_find?_eq_some hf
      have he2 : (0 : Int) ≤ e.2.2 :=
        hnnseg e.2 (List.mem_map.mpr ⟨e, hmem, rfl⟩)
      have hnnfree2 : sizesNN (st.free ++ [e.2]) := by
        intro b hb
        rcases List.mem_append.mp hb with hb | hb
        · exact hnnfree b hb
        · rcases List.mem_singleton.mp hb with rfl
          exact he2
      constructor
      · intro b hb
        simp only [blocksOf] at hb
        rcases List.mem_append.mp hb with hb | hb
        · exact merge_free_list_sizesNN _ hnnfree2 b hb
        · exact hnnseg b (((List.eraseP_sublist st.segs).map (fun e => e.2)).subset hb)
      · intro x
        have hbase := hcov x
        simp only [blocksOf] at hbase ⊢
        rw [covCount_append] at hbase
        rw [covCount_append, covCount_merge_free_list _ hnnfree2 x, covCount_append]
        have hsegperm : (st.segs.map (fun e => e.2)).Perm
            (e.2 :: (st.segs.eraseP (fun x => x.1 = id)).map (fun e => e.2)) := by
          have hm := hperm.map (fun e => e.2)
          simpa using hm
        have hseg := covCount_perm _ _ hsegperm x
        rw [covCount_cons] at hseg
        rw [covCount_cons, covCount_nil]
        omega
theorem foldCmds_inv (M : Int) :
    ∀ (cmds : List Cmd) (st : SegState), SegInv M st →
      (∀ c ∈ cmds, allocPos c = true) → SegInv M (cmds.foldl stepCmd st) := by
  intro cmds
  induction cmds with
  | nil => intro st h _; exact h
  | cons c cs ih =>
    intro st h hpos
    rw [List.foldl_cons]
    exact ih (stepCmd st c) (stepCmd_inv M st c (hpos c (by simp)) h)
      (fun d hd => hpos d (List.mem_cons_of_mem _ hd))

theorem covCount_le_one_pairwise : ∀ l : List (Int × Int),
    (∀ x : Int, covCount l x ≤ 1) → l.Pairwise disjB := by
  intro l
  induction l with
  | nil => intro _; simp
  | cons b t ih =>
    intro h
    rw [List.pairwise_cons]
    constructor
    · intro c hc x hx
      have hcx : 0 < covCount t x := by
        unfold covCount
        exact List.countP_pos.mpr ⟨c, hc, decide_eq_true hx.2⟩
      have hb := h x
      rw [covCount_cons, if_pos hx.1] at hb
      omega
    · apply ih
      intro x
      have hb := h x
      rw [covCount_cons] at hb
      split_ifs at hb <;> omega

theorem segInv_segGood (M : Int) (st : SegState) (h : SegInv M st) : SegGood M st := by
  obtain ⟨hnn, hcov⟩ := h
  constructor
  · apply covCount_le_one_pairwise
    intro x
    rw [hcov x]
    split_ifs <;> omega
  · intro x
    constructor
    · rintro ⟨b, hb, hbx⟩
      by_contra hx
      have h0 := hcov x
      rw [if_neg hx] at h0
      have h1 : 0 < covCount (blocksOf st) x := by
        unfold covCount
        exact List.countP_pos.mpr ⟨b, hb, decide_eq_true hbx⟩
      omega
    · intro hx
      have h1 := hcov x
      rw [if_pos hx] at h1
      have h2 : 0 < covCount (blocksOf st) x := by omega
      unfold covCount at h2
      obtain ⟨b, hb, hpb⟩ := List.countP_pos.mp h2
      exact ⟨b, hb, of_decide_eq_true hpb⟩

/-- C6 (amended): starting from the single free range `[0, memory_size)`
with `memory_size ≥ 0`, after every sequence of allocate/deallocate
commands whose allocation sizes are positive, the segment ranges and
free ranges are pairwise disjoint and their union is exactly
`[0, memory_size)` — the invariant holds after every successful (and
failed) command of such a sequence, since each list prefix is itself
such a sequence. -/
theorem segmentation_partition_invariant (M : Int) (cmds : List Cmd) (hM : 0 ≤ M)
    (hpos : ∀ c ∈ cmds, allocPos c = true) :
    SegGood M (run_segmentation M cmds) := by
  unfold run_segmentation
  exact segInv_segGood M _ (foldCmds_inv M cmds (segInit M) (pinv_segInit M hM) hpos)

/-- C6 witness: the partition invariant after a concrete command
sequence that allocates three segments and frees one. -/
theorem segmentation_partition_invariant_witness :
    ((0 : Int) ≤ 100 ∧
        ([Cmd.alloc "a" 30, Cmd.alloc "b" 50, Cmd.dealloc "a",
          Cmd.alloc "c" 40].all allocPos) = true) ∧
      SegGood 100 (run_segmentation 100
        [Cmd.alloc "a" 30, Cmd.alloc "b" 50, Cmd.dealloc "a", Cmd.alloc "c" 40]) :=
  ⟨⟨by decide, by decide⟩,
    segmentation_partition_invariant 100
      [Cmd.alloc "a" 30, Cmd.alloc "b" 50, Cmd.dealloc "a", Cmd.alloc "c" 40]
      (by decide) (by decide)⟩

end MemSim

